import Mathlib

/-!
Shallow embedding of the Rust hash map in `src/src/lib.rs`.

The Rust code is a separate-chaining hash table:

* `HashMap<K, V>` holds `buckets: Vec<Vec<(K, V)>>` and `items: usize`.
* `bucket_idx` computes `hasher.finish() % self.buckets.len() as u64`.
  The hasher (`DefaultHasher`) is a fixed deterministic function of the key;
  we model it as an arbitrary function `hash : K → Nat` (every `u64`-valued
  hash is an instance).  When `buckets.len() == 0` the Rust `%` operation
  panics (remainder by zero); panics are modelled by `Option`: an operation
  that would panic returns `none`, one that returns normally with result `r`
  returns `some r`.
* Rust `==` on keys (`K: Eq`) is modelled by decidable equality on `K`.
-/

set_option autoImplicit false

namespace Rust

/-- Translation of `const INITIAL_NBUCKETS: usize = 1`. -/
def INITIAL_NBUCKETS : Nat := 1

/-- Translation of `pub struct HashMap<K, V> { buckets: Vec<Vec<(K, V)>>, items: usize }`. -/
structure HashMap (K V : Type) where
  buckets : List (List (K × V))
  items : Nat
deriving DecidableEq

variable {K V : Type} [DecidableEq K]

/-- Translation of `HashMap::new`: empty bucket vector, zero items. -/
def HashMap.new : HashMap K V :=
  { buckets := [], items := 0 }

/-- Translation of `HashMap::len`. -/
def HashMap.len (m : HashMap K V) : Nat := m.items

/-- Translation of `HashMap::is_empty`. -/
def HashMap.is_empty (m : HashMap K V) : Bool := m.items == 0

/-- Translation of `HashMap::bucket_idx`: `hasher.finish() % self.buckets.len() as u64`.
When the bucket vector is empty the Rust remainder-by-zero panics; that case
is `none`. -/
def bucket_idx (hash : K → Nat) (m : HashMap K V) (k : K) : Option Nat :=
  if m.buckets.length = 0 then none
  else some (hash k % m.buckets.length)

/-- Translation of `HashMap::get` (the Rust method takes `&mut self`, so the
model returns the value together with the table state after the call).
The out-of-range bucket access `self.buckets[bucket_idx]` would also panic,
hence the second `Option` layer; we later prove it never fires when the
index comes from `bucket_idx`. -/
def get (hash : K → Nat) (m : HashMap K V) (k : K) :
    Option (Option V × HashMap K V) :=
  match bucket_idx hash m k with
  | none => none
  | some bIdx =>
    match m.buckets[bIdx]? with
    | none => none
    | some bucket =>
      some ((bucket.find? (fun p => decide (p.1 = k))).map Prod.snd, m)

/-- Translation of `Iterator::position` as used in `remove`:
index of the first element satisfying the predicate. -/
def position (p : K × V → Bool) : List (K × V) → Option Nat
  | [] => none
  | a :: l => if p a then some 0 else (position p l).map (fun i => i + 1)

/-- Translation of `Vec::swap_remove(i)`: overwrite slot `i` with the last
element, then drop the last slot.  Callers only use it with `i` in range on a
non-empty vector (Rust panics otherwise; the `none` branch is unreachable in
the translated callers). -/
def swapRemove (l : List (K × V)) (i : Nat) : List (K × V) :=
  match l.getLast? with
  | none => l
  | some a => (l.set i a).dropLast

/-- Translation of `HashMap::remove`.  `self.items -= 1` is Nat subtraction;
under the table invariant a found key forces `items ≥ 1`, so no underflow. -/
def remove (hash : K → Nat) (m : HashMap K V) (k : K) :
    Option (HashMap K V × Option V) :=
  match bucket_idx hash m k with
  | none => none
  | some bIdx =>
    match m.buckets[bIdx]? with
    | none => none
    | some bucket =>
      match position (fun p => decide (p.1 = k)) bucket with
      | none => some (m, none)
      | some i =>
        match bucket[i]? with
        | none => none
        | some p =>
          some ({ buckets := m.buckets.set bIdx (swapRemove bucket i),
                  items := m.items - 1 }, some p.2)

/-- Push a pair onto bucket `i` of the bucket vector: the
`new_buckets[b_idx].push((key, value))` step of `resize`. -/
def pushAt (bs : List (List (K × V))) (i : Nat) (p : K × V) :
    List (List (K × V)) :=
  bs.set i ((bs[i]?).getD [] ++ [p])

/-- Translation of `HashMap::resize`: pick the target size (`1` from empty,
else double), allocate that many empty buckets, then drain every pair of
every old bucket in order into bucket `hash % new_len` of the new vector.
`self.items` is untouched. -/
def resize (hash : K → Nat) (m : HashMap K V) : HashMap K V :=
  let target_size :=
    match m.buckets.length with
    | 0 => INITIAL_NBUCKETS
    | n => 2 * n
  let new_buckets :=
    m.buckets.flatten.foldl (fun bs p => pushAt bs (hash p.1 % bs.length) p)
      (List.replicate target_size [])
  { buckets := new_buckets, items := m.items }

/-- Translation of the bucket scan of `HashMap::insert` (lines 55–62): walk
the bucket; on the first key match replace the value in place and report the
previous value; otherwise append the new pair.  Returns the updated bucket
and the previous value. -/
def replaceOrPush (bucket : List (K × V)) (k : K) (v : V) :
    List (K × V) × Option V :=
  match bucket with
  | [] => ([(k, v)], none)
  | (ekey, evalue) :: rest =>
    if ekey = k then ((ekey, v) :: rest, some evalue)
    else
      let r := replaceOrPush rest k v
      ((ekey, evalue) :: r.1, r.2)

/-- The part of `HashMap::insert` after the load-factor check: address the
bucket, scan it, and update `items` only when a new pair was appended. -/
def insertCore (hash : K → Nat) (m : HashMap K V) (k : K) (v : V) :
    Option (HashMap K V × Option V) :=
  match bucket_idx hash m k with
  | none => none
  | some bIdx =>
    match m.buckets[bIdx]? with
    | none => none
    | some bucket =>
      let r := replaceOrPush bucket k v
      some ({ buckets := m.buckets.set bIdx r.1,
              items := match r.2 with
                       | some _ => m.items
                       | none => m.items + 1 }, r.2)

/-- Translation of `HashMap::insert`: resize first when the bucket vector is
empty or `items > 3 * buckets.len() / 4`, then run the addressing core. -/
def insert (hash : K → Nat) (m : HashMap K V) (k : K) (v : V) :
    Option (HashMap K V × Option V) :=
  insertCore hash
    (if m.buckets.isEmpty || decide (3 * m.buckets.length / 4 < m.items)
     then resize hash m else m) k v

/-- Translation of `struct Iter`'s cursor: the `bucket` and `at` fields.  The
`map` field (a shared borrow of the table) is passed separately to `next`. -/
structure Iter where
  bucket : Nat
  at_ : Nat
deriving DecidableEq

/-- Translation of `<&HashMap as IntoIterator>::into_iter`: a fresh cursor
`{ bucket: 0, at: 0 }` over the table. -/
def HashMap.into_iter (_m : HashMap K V) : Iter :=
  { bucket := 0, at_ := 0 }

/-- Translation of `Iter::next`: look up the current bucket; if the cursor is
inside it yield that pair and advance `at`, if the bucket is exhausted move to
the next bucket (the `continue` of the Rust loop), and if the buckets are
exhausted stop. -/
def Iter.next (m : HashMap K V) (s : Iter) : Option ((K × V) × Iter) :=
  match hb : m.buckets[s.bucket]? with
  | some bucket =>
    match bucket[s.at_]? with
    | some p => some (p, { bucket := s.bucket, at_ := s.at_ + 1 })
    | none => Iter.next m { bucket := s.bucket + 1, at_ := 0 }
  | none => none
termination_by m.buckets.length - s.bucket
decreasing_by
  have h : s.bucket < m.buckets.length := (List.getElem?_eq_some.mp hb).1
  omega

/-! ### Generic list helpers -/

/-- Splitting the concatenation of all buckets at bucket `i`. -/
theorem flatten_split {α : Type} :
    ∀ (bs : List (List α)) (i : Nat), i < bs.length →
      bs.flatten = (bs.take i).flatten ++ ((bs[i]?).getD [] ++ (bs.drop (i+1)).flatten)
  | [], i, h => absurd h (by simp)
  | b :: bs, 0, _ => by simp
  | b :: bs, i+1, h => by
    have ih := flatten_split bs i (by simpa using h)
    simp only [List.take_succ_cons, List.drop_succ_cons, List.flatten_cons,
      List.getElem?_cons_succ, List.append_assoc]
    rw [ih]

/-- Concatenation of all buckets after overwriting bucket `i`. -/
theorem flatten_set {α : Type} :
    ∀ (bs : List (List α)) (i : Nat) (c : List α), i < bs.length →
      (bs.set i c).flatten = (bs.take i).flatten ++ (c ++ (bs.drop (i+1)).flatten)
  | [], i, _, h => absurd h (by simp)
  | b :: bs, 0, c, _ => by simp
  | b :: bs, i+1, c, h => by
    have ih := flatten_set bs i c (by simpa using h)
    simp only [List.set_cons_succ, List.take_succ_cons, List.drop_succ_cons,
      List.flatten_cons, List.append_assoc]
    rw [ih]

/-- A member of the flattened first `i` buckets lives in some bucket `j < i`. -/
theorem mem_flatten_take {α : Type} :
    ∀ (bs : List (List α)) (i : Nat) (p : α), p ∈ (bs.take i).flatten →
      ∃ j, j < i ∧ ∃ b, bs[j]? = some b ∧ p ∈ b
  | [], i, p, h => by simp at h
  | b :: bs, 0, p, h => by simp at h
  | b :: bs, i+1, p, h => by
    simp only [List.take_succ_cons, List.flatten_cons, List.mem_append] at h
    rcases h with h | h
    · exact ⟨0, Nat.succ_pos _, b, by simp, h⟩
    · obtain ⟨j, hj, bj, hbj, hp⟩ := mem_flatten_take bs i p h
      exact ⟨j+1, Nat.succ_lt_succ hj, bj, by simpa using hbj, hp⟩

/-- A member of the flattened buckets from `i` on lives in some bucket `j ≥ i`. -/
theorem mem_flatten_drop {α : Type} :
    ∀ (bs : List (List α)) (i : Nat) (p : α), p ∈ (bs.drop i).flatten →
      ∃ j, i ≤ j ∧ ∃ b, bs[j]? = some b ∧ p ∈ b
  | bs, 0, p, h => by
    obtain ⟨b, hb, hp⟩ := List.mem_flatten.mp (by simpa using h)
    obtain ⟨j, hj⟩ := List.mem_iff_getElem?.mp hb
    exact ⟨j, Nat.zero_le _, b, hj, hp⟩
  | [], i+1, p, h => by simp at h
  | b :: bs, i+1, p, h => by
    obtain ⟨j, hj, bj, hbj, hp⟩ := mem_flatten_drop bs i p (by simpa using h)
    exact ⟨j+1, Nat.succ_le_succ hj, bj, by simpa using hbj, hp⟩

/-! ### `position` lemmas -/

theorem position_eq_none {p : K × V → Bool} :
    ∀ (l : List (K × V)), position p l = none ↔ ∀ a ∈ l, p a = false
  | [] => by simp [position]
  | a :: l => by
    cases hpa : p a with
    | true => simp [position, hpa]
    | false => simp [position, hpa, position_eq_none l]

theorem position_eq_some {p : K × V → Bool} :
    ∀ {l : List (K × V)} {i : Nat}, position p l = some i →
      ∃ a, l[i]? = some a ∧ p a = true
  | [], i, h => by simp [position] at h
  | a :: l, i, h => by
    cases hpa : p a with
    | true =>
      simp [position, hpa] at h
      subst h
      exact ⟨a, by simp, hpa⟩
    | false =>
      simp only [position, hpa, Bool.false_eq_true, if_false,
        Option.map_eq_some'] at h
      obtain ⟨j, hj, rfl⟩ := h
      obtain ⟨b, hb, hpb⟩ := position_eq_some hj
      exact ⟨b, by simpa using hb, hpb⟩

/-! ### `replaceOrPush` lemmas -/

variable (hash : K → Nat)

/-- The previous value reported by the bucket scan of `insert` is the value of
the first matching entry. -/
theorem replaceOrPush_snd :
    ∀ (b : List (K × V)) (k : K) (v : V),
      (replaceOrPush b k v).2 = (b.find? (fun p => decide (p.1 = k))).map Prod.snd
  | [], k, v => rfl
  | (ek, ev) :: rest, k, v => by
    by_cases h : ek = k
    · simp [replaceOrPush, h]
    · simp [replaceOrPush, h, replaceOrPush_snd rest k v]

/-- When no entry matches, the bucket scan appends the new pair. -/
theorem replaceOrPush_fst_of_not_found :
    ∀ {b : List (K × V)} {k : K} {v : V},
      b.find? (fun p => decide (p.1 = k)) = none → (replaceOrPush b k v).1 = b ++ [(k, v)]
  | [], k, v, _ => rfl
  | (ek, ev) :: rest, k, v, h => by
    by_cases hek : ek = k
    · simp [hek] at h
    · simp only [List.find?_cons, decide_eq_true_eq, hek, ite_false] at h
      simp [replaceOrPush, hek, replaceOrPush_fst_of_not_found h]

/-- When some entry matches, the bucket scan keeps the key sequence unchanged. -/
theorem replaceOrPush_fst_keys_of_found :
    ∀ {b : List (K × V)} {k : K} {v : V},
      (b.find? (fun p => decide (p.1 = k))).isSome →
      (replaceOrPush b k v).1.map Prod.fst = b.map Prod.fst
  | [], k, v, h => by simp at h
  | (ek, ev) :: rest, k, v, h => by
    by_cases hek : ek = k
    · simp [replaceOrPush, hek]
    · simp only [List.find?_cons, decide_eq_true_eq, hek, ite_false] at h
      simp [replaceOrPush, hek, replaceOrPush_fst_keys_of_found h]

/-- After the bucket scan, the first entry matching `k` carries value `v`. -/
theorem replaceOrPush_find :
    ∀ (b : List (K × V)) (k : K) (v : V),
      ((replaceOrPush b k v).1.find? (fun p => decide (p.1 = k))).map Prod.snd = some v
  | [], k, v => by simp [replaceOrPush]
  | (ek, ev) :: rest, k, v => by
    by_cases h : ek = k
    · simp [replaceOrPush, h]
    · simp [replaceOrPush, h, replaceOrPush_find rest k v]

/-- Every entry produced by the bucket scan either has key `k` or was already
in the bucket. -/
theorem replaceOrPush_mem :
    ∀ {b : List (K × V)} {k : K} {v : V} {p : K × V},
      p ∈ (replaceOrPush b k v).1 → p.1 = k ∨ p ∈ b
  | [], k, v, p, h => by
    simp only [replaceOrPush, List.mem_singleton] at h
    exact Or.inl (by simp [h])
  | (ek, ev) :: rest, k, v, p, h => by
    by_cases hek : ek = k
    · simp only [replaceOrPush, hek, if_pos, List.mem_cons] at h
      rcases h with rfl | h
      · exact Or.inl rfl
      · exact Or.inr (List.mem_cons_of_mem _ h)
    · simp only [replaceOrPush, hek, if_neg, not_false_iff, List.mem_cons] at h
      rcases h with rfl | h
      · exact Or.inr (List.mem_cons_self _ _)
      · rcases replaceOrPush_mem h with h | h
        · exact Or.inl h
        · exact Or.inr (List.mem_cons_of_mem _ h)

/-- Length bookkeeping for the bucket scan: unchanged on a match, one more on
an append. -/
theorem replaceOrPush_length :
    ∀ (b : List (K × V)) (k : K) (v : V),
      (replaceOrPush b k v).1.length =
        b.length + (if (b.find? (fun p => decide (p.1 = k))).isSome then 0 else 1)
  | [], k, v => by simp [replaceOrPush]
  | (ek, ev) :: rest, k, v => by
    by_cases h : ek = k
    · simp [replaceOrPush, h]
    · simp only [replaceOrPush, if_neg h, List.find?_cons, decide_eq_false h,
        List.length_cons, replaceOrPush_length rest k v]
      omega

/-! ### `swapRemove` lemmas -/

/-- Rust's `swap_remove(i)` keeps exactly the other elements: the result is a
permutation of dropping position `i`. -/
theorem swapRemove_perm {l : List (K × V)} {i : Nat} (h : i < l.length) :
    (swapRemove l i).Perm (l.eraseIdx i) := by
  have hne : l ≠ [] := by
    intro hnil; subst hnil; simp at h
  obtain ⟨a, ha⟩ : ∃ a, l.getLast? = some a := by
    cases hl : l.getLast? with
    | none => exact absurd (List.getLast?_eq_none_iff.mp hl) hne
    | some a => exact ⟨a, rfl⟩
  rw [swapRemove, ha]
  show ((l.set i a).dropLast).Perm (l.eraseIdx i)
  rw [List.set_eq_take_cons_drop a h, List.eraseIdx_eq_take_drop_succ]
  by_cases hD : l.drop (i+1) = []
  · rw [hD]
    simp
  · rw [List.dropLast_append_cons, List.dropLast_cons_of_ne_nil hD]
    obtain ⟨d, hd⟩ : ∃ d, (l.drop (i+1)).getLast? = some d := by
      cases hl : (l.drop (i+1)).getLast? with
      | none => exact absurd (List.getLast?_eq_none_iff.mp hl) hD
      | some d => exact ⟨d, rfl⟩
    have had : a = d := by
      have ha2 : (l.take (i+1) ++ l.drop (i+1)).getLast? = some a := by
        rw [List.take_append_drop]; exact ha
      rw [List.getLast?_append, hd] at ha2
      simpa using ha2.symm
    have hDeq : (l.drop (i+1)).dropLast ++ [a] = l.drop (i+1) := by
      rw [had]
      exact List.dropLast_append_getLast? d (Option.mem_def.mpr hd)
    have hstep := List.Perm.append_left (l.take i)
      (List.perm_append_singleton a ((l.drop (i+1)).dropLast)).symm
    rw [hDeq] at hstep
    exact hstep

theorem swapRemove_length {l : List (K × V)} {i : Nat} (h : i < l.length) :
    (swapRemove l i).length = l.length - 1 := by
  rw [(swapRemove_perm h).length_eq, List.length_eraseIdx_of_lt h]

theorem swapRemove_subset {l : List (K × V)} {i : Nat} (h : i < l.length) :
    ∀ p ∈ swapRemove l i, p ∈ l :=
  fun _ hp => List.mem_of_mem_eraseIdx ((swapRemove_perm h).mem_iff.mp hp)

/-! ### `pushAt` and the resize fold -/

theorem pushAt_length (bs : List (List (K × V))) (i : Nat) (p : K × V) :
    (pushAt bs i p).length = bs.length :=
  List.length_set ..

theorem pushAt_flatten_perm {bs : List (List (K × V))} {i : Nat}
    (h : i < bs.length) (p : K × V) :
    (pushAt bs i p).flatten.Perm (bs.flatten ++ [p]) := by
  rw [pushAt, flatten_set _ _ _ h]
  conv_rhs => rw [flatten_split bs i h]
  simp only [List.append_assoc]
  refine List.Perm.append_left _ ?_
  refine List.Perm.append_left _ ?_
  simpa using (List.perm_append_singleton p ((bs.drop (i+1)).flatten)).symm

/-- Every pair sits in the bucket selected by its hash. -/
def placed (hash : K → Nat) (bs : List (List (K × V))) : Prop :=
  ∀ i b, bs[i]? = some b → ∀ p ∈ b, hash p.1 % bs.length = i

theorem placed_pushAt {bs : List (List (K × V))} (hpl : placed hash bs)
    {p : K × V} (h : hash p.1 % bs.length < bs.length) :
    placed hash (pushAt bs (hash p.1 % bs.length) p) := by
  intro j b hj q hq
  rw [pushAt, List.getElem?_set] at hj
  rw [pushAt_length]
  by_cases hij : hash p.1 % bs.length = j
  · rw [if_pos hij, if_pos (hij ▸ h)] at hj
    cases hj
    rcases List.mem_append.mp hq with hq | hq
    · obtain ⟨c, hc⟩ : ∃ c, bs[hash p.1 % bs.length]? = some c :=
        ⟨_, List.getElem?_eq_getElem h⟩
      rw [← hij]
      refine hpl _ c hc q ?_
      simpa [hc] using hq
    · rw [List.mem_singleton] at hq
      subst hq
      exact hij
  · rw [if_neg hij] at hj
    exact hpl j b hj q hq

theorem foldl_push_length (hash : K → Nat) :
    ∀ (l : List (K × V)) (bs : List (List (K × V))),
      (l.foldl (fun bs p => pushAt bs (hash p.1 % bs.length) p) bs).length
        = bs.length
  | [], _ => rfl
  | p :: l, bs => by
    rw [List.foldl_cons, foldl_push_length hash l, pushAt_length]

theorem foldl_push_flatten_perm (hash : K → Nat) :
    ∀ (l : List (K × V)) (bs : List (List (K × V))), 0 < bs.length →
      ((l.foldl (fun bs p => pushAt bs (hash p.1 % bs.length) p) bs).flatten).Perm
        (bs.flatten ++ l)
  | [], bs, _ => by simp
  | p :: l, bs, h => by
    rw [List.foldl_cons]
    have h2 : 0 < (pushAt bs (hash p.1 % bs.length) p).length := by
      rw [pushAt_length]; exact h
    refine (foldl_push_flatten_perm hash l _ h2).trans ?_
    refine ((List.Perm.append_right l (pushAt_flatten_perm (Nat.mod_lt _ h) p))).trans ?_
    simp

theorem foldl_push_placed (hash : K → Nat) :
    ∀ (l : List (K × V)) (bs : List (List (K × V))), 0 < bs.length →
      placed hash bs →
      placed hash (l.foldl (fun bs p => pushAt bs (hash p.1 % bs.length) p) bs)
  | [], _, _, hpl => hpl
  | p :: l, bs, h, hpl => by
    rw [List.foldl_cons]
    refine foldl_push_placed hash l _ ?_ ?_
    · rw [pushAt_length]; exact h
    · exact placed_pushAt hash hpl (Nat.mod_lt _ h)

/-! ### `resize` facts -/

theorem resize_length (m : HashMap K V) :
    (resize hash m).buckets.length =
      if m.buckets.length = 0 then 1 else 2 * m.buckets.length := by
  simp only [resize, foldl_push_length, List.length_replicate]
  cases h : m.buckets.length with
  | zero => simp [INITIAL_NBUCKETS]
  | succ n => simp

theorem resize_length_pos (m : HashMap K V) :
    0 < (resize hash m).buckets.length := by
  rw [resize_length]
  by_cases h : m.buckets.length = 0 <;> simp [h] <;> omega

theorem resize_items (m : HashMap K V) : (resize hash m).items = m.items := rfl

theorem placed_replicate (n : Nat) :
    placed hash (List.replicate n ([] : List (K × V))) := by
  intro i b hb p hp
  rw [List.getElem?_replicate] at hb
  by_cases h : i < n
  · rw [if_pos h] at hb
    cases hb
    simp at hp
  · rw [if_neg h] at hb
    cases hb

theorem resize_flatten_perm (m : HashMap K V) :
    ((resize hash m).buckets.flatten).Perm m.buckets.flatten := by
  have htgt : 0 < (List.replicate (match m.buckets.length with
      | 0 => INITIAL_NBUCKETS | n => 2 * n) ([] : List (K × V))).length := by
    rw [List.length_replicate]
    cases m.buckets.length <;> simp [INITIAL_NBUCKETS]
  have := foldl_push_flatten_perm hash m.buckets.flatten _ htgt
  simpa [resize] using this

theorem resize_placed (m : HashMap K V) :
    placed hash (resize hash m).buckets := by
  have htgt : 0 < (List.replicate (match m.buckets.length with
      | 0 => INITIAL_NBUCKETS | n => 2 * n) ([] : List (K × V))).length := by
    rw [List.length_replicate]
    cases m.buckets.length <;> simp [INITIAL_NBUCKETS]
  have := foldl_push_placed hash m.buckets.flatten _ htgt
    (placed_replicate hash _)
  simpa [resize] using this

/-! ### The table invariant -/

/-- The data-model invariant of the spec: every pair sits in the bucket given
by its hash, keys are globally unique, and `items` caches the total number of
stored pairs. -/
def Inv (hash : K → Nat) (m : HashMap K V) : Prop :=
  placed hash m.buckets ∧ (m.buckets.flatten.map Prod.fst).Nodup ∧
    m.items = m.buckets.flatten.length

/-- Bounded reformulation of `placed`, used for decidability. -/
theorem placed_iff_bounded {bs : List (List (K × V))} :
    placed hash bs ↔
      ∀ i, i < bs.length → ∀ p ∈ (bs[i]?).getD [], hash p.1 % bs.length = i := by
  constructor
  · intro hpl i hi p hp
    obtain ⟨b, hb⟩ : ∃ b, bs[i]? = some b := ⟨_, List.getElem?_eq_getElem hi⟩
    exact hpl i b hb p (by simpa [hb] using hp)
  · intro hpl i b hb p hp
    have hi : i < bs.length := (List.getElem?_eq_some.mp hb).1
    exact hpl i hi p (by simpa [hb] using hp)

instance {bs : List (List (K × V))} : Decidable (placed hash bs) :=
  decidable_of_iff _ (placed_iff_bounded hash).symm

instance {m : HashMap K V} : Decidable (Inv hash m) := by
  unfold Inv
  infer_instance

theorem Inv_resize {m : HashMap K V} (h : Inv hash m) : Inv hash (resize hash m) := by
  obtain ⟨hpl, hnd, hit⟩ := h
  refine ⟨resize_placed hash m, ?_, ?_⟩
  · exact ((resize_flatten_perm hash m).map Prod.fst).nodup_iff.mpr hnd
  · rw [resize_items, hit, (resize_flatten_perm hash m).length_eq]

/-! ### Bucket addressing -/

theorem bucket_idx_of_pos {m : HashMap K V} (h : 0 < m.buckets.length) (k : K) :
    bucket_idx hash m k = some (hash k % m.buckets.length) := by
  rw [bucket_idx, if_neg (by omega)]

theorem bucket_exists {m : HashMap K V} (h : 0 < m.buckets.length) (k : K) :
    ∃ b, m.buckets[hash k % m.buckets.length]? = some b :=
  ⟨_, List.getElem?_eq_getElem (Nat.mod_lt _ h)⟩

/-- On a non-empty bucket vector, `insertCore` addresses bucket
`hash k % len` and rewrites it through the bucket scan. -/
theorem insertCore_eq {m : HashMap K V} (h : 0 < m.buckets.length) (k : K) (v : V) :
    ∃ b, m.buckets[hash k % m.buckets.length]? = some b ∧
      insertCore hash m k v =
        some ({ buckets :=
                  m.buckets.set (hash k % m.buckets.length) (replaceOrPush b k v).1,
                items := match (replaceOrPush b k v).2 with
                         | some _ => m.items
                         | none => m.items + 1 },
              (replaceOrPush b k v).2) := by
  obtain ⟨b, hb⟩ := bucket_exists hash h k
  refine ⟨b, hb, ?_⟩
  simp only [insertCore, bucket_idx_of_pos hash h, hb]

/-- After `insertCore` on a non-empty bucket vector, `get` finds the freshly
written value and leaves the table untouched. -/
theorem get_insertCore {m : HashMap K V} (h : 0 < m.buckets.length) {k : K}
    {v : V} {m' : HashMap K V} {old : Option V}
    (heq : insertCore hash m k v = some (m', old)) :
    get hash m' k = some (some v, m') := by
  obtain ⟨b, hb, heq'⟩ := insertCore_eq hash h k v
  rw [heq'] at heq
  have hm : m' = ⟨m.buckets.set (hash k % m.buckets.length) (replaceOrPush b k v).1,
      (match (replaceOrPush b k v).2 with
       | some _ => m.items
       | none => m.items + 1)⟩ :=
    (congrArg Prod.fst (Option.some.inj heq)).symm
  subst hm
  have hlen : (m.buckets.set (hash k % m.buckets.length)
      (replaceOrPush b k v).1).length = m.buckets.length := List.length_set ..
  have hpos : (0:Nat) < (m.buckets.set (hash k % m.buckets.length)
      (replaceOrPush b k v).1).length := by rw [hlen]; exact h
  rw [get]
  rw [show bucket_idx hash
      (⟨m.buckets.set (hash k % m.buckets.length) (replaceOrPush b k v).1,
        (match (replaceOrPush b k v).2 with
         | some _ => m.items
         | none => m.items + 1)⟩ : HashMap K V) k
      = some (hash k % m.buckets.length) by
    rw [bucket_idx_of_pos hash hpos]
    simp [hlen]]
  have hidx : (m.buckets.set (hash k % m.buckets.length)
      (replaceOrPush b k v).1)[hash k % m.buckets.length]?
      = some (replaceOrPush b k v).1 := by
    rw [List.getElem?_set, if_pos rfl, if_pos (Nat.mod_lt _ h)]
  simp only [hidx]
  rw [replaceOrPush_find]

/-- A pair stored in a bucket other than `hash k % len` cannot have key `k`. -/
theorem placed_off_bucket {bs : List (List (K × V))} (hpl : placed hash bs)
    {k : K} {q : K × V} {j : Nat} {b : List (K × V)} (hb : bs[j]? = some b)
    (hq : q ∈ b) (hne : j ≠ hash k % bs.length) : ¬ q.1 = k := by
  intro hqk
  exact hne (by rw [← hpl j b hb q hq, hqk])

/-- Entries in buckets strictly before `hash k % len` never match key `k`. -/
theorem take_no_key {bs : List (List (K × V))} (hpl : placed hash bs) (k : K) :
    ∀ q ∈ ((bs.take (hash k % bs.length)).flatten),
      ¬ (fun p => decide (p.1 = k)) q := by
  intro q hq
  obtain ⟨j, hji, b, hb, hqb⟩ := mem_flatten_take _ _ _ hq
  simpa using placed_off_bucket hash hpl hb hqb (Nat.ne_of_lt hji)

/-- Entries in buckets strictly after `hash k % len` never match key `k`. -/
theorem drop_no_key {bs : List (List (K × V))} (hpl : placed hash bs) (k : K) :
    ∀ q ∈ ((bs.drop (hash k % bs.length + 1)).flatten),
      ¬ (fun p => decide (p.1 = k)) q := by
  intro q hq
  obtain ⟨j, hji, b, hb, hqb⟩ := mem_flatten_drop _ _ _ hq
  exact by simpa using placed_off_bucket hash hpl hb hqb (by omega)

/-- Under the placement invariant, searching the whole table for key `k` is
the same as searching bucket `hash k % len`. -/
theorem find?_flatten_eq_bucket {m : HashMap K V} (hpl : placed hash m.buckets)
    (h : 0 < m.buckets.length) {k : K} {b : List (K × V)}
    (hb : m.buckets[hash k % m.buckets.length]? = some b) :
    m.buckets.flatten.find? (fun p => decide (p.1 = k))
      = b.find? (fun p => decide (p.1 = k)) := by
  rw [flatten_split m.buckets (hash k % m.buckets.length) (Nat.mod_lt _ h), hb]
  rw [List.find?_append, List.find?_append,
    List.find?_eq_none.mpr (take_no_key hash hpl k),
    List.find?_eq_none.mpr (drop_no_key hash hpl k)]
  simp

/-- Behaviour of the post-resize part of `insert` on an invariant-satisfying
table with a non-empty bucket vector: the invariant is preserved, the returned
previous value is the value stored for `k` before the call, the value stored
for `k` after the call is `v`, `items` grows only on a fresh key, and the
bucket count is unchanged. -/
theorem Inv_insertCore {m : HashMap K V} (hInv : Inv hash m)
    (h : 0 < m.buckets.length) {k : K} {v : V} {m' : HashMap K V}
    {old : Option V} (heq : insertCore hash m k v = some (m', old)) :
    Inv hash m' ∧
      old = (m.buckets.flatten.find? (fun p => decide (p.1 = k))).map Prod.snd ∧
      (m'.buckets.flatten.find? (fun p => decide (p.1 = k))).map Prod.snd = some v ∧
      (old.isSome = true → m'.items = m.items) ∧
      (old = none → m'.items = m.items + 1) ∧
      m'.buckets.length = m.buckets.length := by
  obtain ⟨b, hb, heq'⟩ := insertCore_eq hash h k v
  rw [heq'] at heq
  have hpair := Option.some.inj heq
  have hm : m' = ⟨m.buckets.set (hash k % m.buckets.length) (replaceOrPush b k v).1,
      (match (replaceOrPush b k v).2 with
       | some _ => m.items
       | none => m.items + 1)⟩ :=
    (congrArg Prod.fst hpair).symm
  have hold : old = (replaceOrPush b k v).2 := (congrArg Prod.snd hpair).symm
  subst hm
  subst hold
  have hiLt : hash k % m.buckets.length < m.buckets.length := Nat.mod_lt _ h
  have hflat : m.buckets.flatten
      = (m.buckets.take (hash k % m.buckets.length)).flatten
        ++ (b ++ (m.buckets.drop (hash k % m.buckets.length + 1)).flatten) := by
    have := flatten_split m.buckets (hash k % m.buckets.length) hiLt
    rw [hb] at this
    exact this
  have hflat' : (m.buckets.set (hash k % m.buckets.length)
        (replaceOrPush b k v).1).flatten
      = (m.buckets.take (hash k % m.buckets.length)).flatten
        ++ ((replaceOrPush b k v).1
          ++ (m.buckets.drop (hash k % m.buckets.length + 1)).flatten) :=
    flatten_set m.buckets _ _ hiLt
  have hfind : m.buckets.flatten.find? (fun p => decide (p.1 = k))
      = b.find? (fun p => decide (p.1 = k)) :=
    find?_flatten_eq_bucket hash hInv.1 h hb
  have hkeysNew : ∀ q ∈ (replaceOrPush b k v).1,
      hash q.1 % m.buckets.length = hash k % m.buckets.length := by
    intro q hq
    rcases replaceOrPush_mem hq with hqk | hqb
    · rw [hqk]
    · exact hInv.1 _ b hb q hqb
  refine ⟨⟨?_, ?_, ?_⟩, ?_, ?_, ?_, ?_, List.length_set ..⟩
  · -- placement
    intro j bq hbq q hq
    simp only [List.length_set]
    rw [List.getElem?_set] at hbq
    by_cases hij : hash k % m.buckets.length = j
    · rw [if_pos hij, if_pos (hij ▸ hiLt)] at hbq
      cases hbq
      rw [← hij]
      exact hkeysNew q hq
    · rw [if_neg hij] at hbq
      exact hInv.1 j bq hbq q hq
  · -- key uniqueness
    show ((m.buckets.set (hash k % m.buckets.length)
      (replaceOrPush b k v).1).flatten.map Prod.fst).Nodup
    rw [hflat']
    by_cases hfound : (b.find? (fun p => decide (p.1 = k))).isSome
    · rw [List.map_append, List.map_append,
        replaceOrPush_fst_keys_of_found hfound,
        ← List.map_append, ← List.map_append, ← hflat]
      exact hInv.2.1
    · have hnone : b.find? (fun p => decide (p.1 = k)) = none :=
        Option.not_isSome_iff_eq_none.mp hfound
      rw [replaceOrPush_fst_of_not_found hnone]
      rw [List.map_append, List.map_append, List.map_append]
      have hperm : (m.buckets.take (hash k % m.buckets.length)).flatten.map Prod.fst
            ++ ((b.map Prod.fst ++ [(k, v)].map Prod.fst)
              ++ (m.buckets.drop (hash k % m.buckets.length + 1)).flatten.map Prod.fst)
          |>.Perm (k :: m.buckets.flatten.map Prod.fst) := by
        have p1 : (b.map Prod.fst ++ [(k, v)].map Prod.fst).Perm
            (k :: b.map Prod.fst) := by
          simpa using List.perm_append_singleton k (b.map Prod.fst)
        have p2 := (List.Perm.append_right
          ((m.buckets.drop (hash k % m.buckets.length + 1)).flatten.map Prod.fst) p1)
        have p3 := List.Perm.append_left
          ((m.buckets.take (hash k % m.buckets.length)).flatten.map Prod.fst) p2
        refine p3.trans ?_
        rw [hflat, List.map_append, List.map_append]
        simpa using List.perm_middle
      refine hperm.nodup_iff.mpr ?_
      rw [List.nodup_cons]
      refine ⟨?_, hInv.2.1⟩
      intro hkmem
      obtain ⟨q, hq, hqk⟩ := List.mem_map.mp hkmem
      rw [hflat] at hq
      rcases List.mem_append.mp hq with hq | hq
      · exact take_no_key hash hInv.1 k q hq (by simpa using hqk)
      · rcases List.mem_append.mp hq with hq | hq
        · exact (List.find?_eq_none.mp hnone q hq) (by simpa using hqk)
        · exact drop_no_key hash hInv.1 k q hq (by simpa using hqk)
  · -- items bookkeeping
    show (match (replaceOrPush b k v).2 with
          | some _ => m.items
          | none => m.items + 1)
        = (m.buckets.set (hash k % m.buckets.length)
            (replaceOrPush b k v).1).flatten.length
    have hlen' : (m.buckets.set (hash k % m.buckets.length)
          (replaceOrPush b k v).1).flatten.length
        = (m.buckets.take (hash k % m.buckets.length)).flatten.length
          + ((replaceOrPush b k v).1.length
            + (m.buckets.drop (hash k % m.buckets.length + 1)).flatten.length) := by
      rw [hflat', List.length_append, List.length_append]
    have hlen : m.items
        = (m.buckets.take (hash k % m.buckets.length)).flatten.length
          + (b.length
            + (m.buckets.drop (hash k % m.buckets.length + 1)).flatten.length) := by
      rw [hInv.2.2, hflat, List.length_append, List.length_append]
    cases hf : b.find? (fun p => decide (p.1 = k)) with
    | some x =>
      have h2 : (replaceOrPush b k v).2 = some x.2 := by
        rw [replaceOrPush_snd, hf]; rfl
      have h3 : (replaceOrPush b k v).1.length = b.length := by
        rw [replaceOrPush_length, hf]
        simp
      simp only [h2]
      rw [hlen', h3]
      omega
    | none =>
      have h2 : (replaceOrPush b k v).2 = none := by
        rw [replaceOrPush_snd, hf]; rfl
      have h3 : (replaceOrPush b k v).1.length = b.length + 1 := by
        rw [replaceOrPush_length, hf]
        simp
      simp only [h2]
      rw [hlen', h3, hlen]
      ring
  · -- returned previous value
    rw [replaceOrPush_snd, hfind]
  · -- the stored value for k is now v
    have hTF := take_no_key hash hInv.1 k
    have hDF := drop_no_key hash hInv.1 k
    show ((m.buckets.set (hash k % m.buckets.length)
        (replaceOrPush b k v).1).flatten.find?
          (fun p => decide (p.1 = k))).map Prod.snd = some v
    rw [hflat', List.find?_append, List.find?_append,
      List.find?_eq_none.mpr hTF]
    have hsome : ((replaceOrPush b k v).1.find?
        (fun p => decide (p.1 = k))).isSome := by
      cases hx : (replaceOrPush b k v).1.find? (fun p => decide (p.1 = k)) with
      | none => simpa [hx] using replaceOrPush_find b k v
      | some x => rfl
    obtain ⟨x, hx⟩ := Option.isSome_iff_exists.mp hsome
    rw [hx]
    simp only [Option.none_or, Option.or_some]
    have := replaceOrPush_find b k v
    rw [hx] at this
    exact this
  · -- items unchanged on overwrite
    intro hs
    obtain ⟨x, hx⟩ := Option.isSome_iff_exists.mp hs
    show (match (replaceOrPush b k v).2 with
          | some _ => m.items
          | none => m.items + 1) = m.items
    simp only [hx]
  · -- items grow by one on a fresh key
    intro hn
    show (match (replaceOrPush b k v).2 with
          | some _ => m.items
          | none => m.items + 1) = m.items + 1
    simp only [hn]

/-! ### `insert` wrappers -/

/-- The bucket vector `insert` actually addresses (after the conditional
resize) is never empty. -/
theorem insert_pre_pos (m : HashMap K V) :
    0 < (if m.buckets.isEmpty || decide (3 * m.buckets.length / 4 < m.items)
         then resize hash m else m).buckets.length := by
  by_cases hc : (m.buckets.isEmpty || decide (3 * m.buckets.length / 4 < m.items)) = true
  · rw [if_pos hc]
    exact resize_length_pos hash m
  · rw [if_neg hc]
    have h1 : m.buckets.isEmpty = false := by
      cases h1 : m.buckets.isEmpty with
      | false => rfl
      | true => exact absurd (by rw [h1]; simp) hc
    have h2 : m.buckets ≠ [] := by
      intro h2
      rw [h2] at h1
      simp at h1
    exact List.length_pos.mpr h2

theorem Inv_insert_pre {m : HashMap K V} (hInv : Inv hash m) :
    Inv hash (if m.buckets.isEmpty || decide (3 * m.buckets.length / 4 < m.items)
              then resize hash m else m) := by
  by_cases hc : (m.buckets.isEmpty || decide (3 * m.buckets.length / 4 < m.items)) = true
  · rw [if_pos hc]
    exact Inv_resize hash hInv
  · rw [if_neg hc]
    exact hInv

theorem insert_pre_items (m : HashMap K V) :
    (if m.buckets.isEmpty || decide (3 * m.buckets.length / 4 < m.items)
     then resize hash m else m).items = m.items := by
  by_cases hc : (m.buckets.isEmpty || decide (3 * m.buckets.length / 4 < m.items)) = true
  · rw [if_pos hc]
    exact resize_items hash m
  · rw [if_neg hc]

/-- `insert` never fails and is followed by a successful `get` of the new
value, on every table state. -/
theorem insert_then_get (m : HashMap K V) (k : K) (v : V) :
    ∃ m' old, insert hash m k v = some (m', old)
      ∧ get hash m' k = some (some v, m') := by
  have h := insert_pre_pos hash m
  obtain ⟨b, hb, heq⟩ := insertCore_eq hash h k v
  exact ⟨_, _, heq, get_insertCore hash h heq⟩

/-- With unique keys, searching for a key is invariant under permutation. -/
theorem find?_key_eq_of_perm {l l' : List (K × V)} (hperm : l.Perm l')
    (hnd : (l.map Prod.fst).Nodup) (k : K) :
    l.find? (fun p => decide (p.1 = k)) = l'.find? (fun p => decide (p.1 = k)) := by
  cases hl : l.find? (fun p => decide (p.1 = k)) with
  | none =>
    cases hl' : l'.find? (fun p => decide (p.1 = k)) with
    | none => rfl
    | some y =>
      have hy := List.find?_some hl'
      have hmem : y ∈ l := hperm.mem_iff.mpr (List.mem_of_find?_eq_some hl')
      exact absurd hy (List.find?_eq_none.mp hl y hmem)
  | some x =>
    have hx := List.find?_some hl
    have hxl : x ∈ l := List.mem_of_find?_eq_some hl
    cases hl' : l'.find? (fun p => decide (p.1 = k)) with
    | none =>
      exact absurd hx (List.find?_eq_none.mp hl' x (hperm.mem_iff.mp hxl))
    | some y =>
      have hy := List.find?_some hl'
      have hyl : y ∈ l := hperm.mem_iff.mpr (List.mem_of_find?_eq_some hl')
      have hxy : x = y := List.inj_on_of_nodup_map hnd hxl hyl
        (by rw [decide_eq_true_eq.mp hx, decide_eq_true_eq.mp hy])
      rw [hxy]

/-- Full behaviour of `insert` on an invariant-satisfying table. -/
theorem insert_spec {m : HashMap K V} (hInv : Inv hash m) (k : K) (v : V) :
    ∃ m' old, insert hash m k v = some (m', old) ∧ Inv hash m' ∧
      old = (m.buckets.flatten.find? (fun p => decide (p.1 = k))).map Prod.snd ∧
      (m'.buckets.flatten.find? (fun p => decide (p.1 = k))).map Prod.snd = some v ∧
      (old.isSome = true → m'.items = m.items) ∧
      (old = none → m'.items = m.items + 1) := by
  have hpos := insert_pre_pos hash m
  have hInvPre := Inv_insert_pre hash hInv
  obtain ⟨b, hb, heq⟩ := insertCore_eq hash hpos k v
  obtain ⟨hInv', hold, hnew, hsome, hnone, _⟩ := Inv_insertCore hash hInvPre hpos heq
  have hfindPre : (if m.buckets.isEmpty || decide (3 * m.buckets.length / 4 < m.items)
        then resize hash m else m).buckets.flatten.find? (fun p => decide (p.1 = k))
      = m.buckets.flatten.find? (fun p => decide (p.1 = k)) := by
    by_cases hc : (m.buckets.isEmpty || decide (3 * m.buckets.length / 4 < m.items)) = true
    · rw [if_pos hc]
      exact find?_key_eq_of_perm (resize_flatten_perm hash m)
        ((Inv_resize hash hInv).2.1) k
    · rw [if_neg hc]
  have hitems := insert_pre_items hash m
  refine ⟨_, _, heq, hInv', ?_, hnew, ?_, ?_⟩
  · rw [hold, hfindPre]
  · intro hs
    rw [hsome hs, hitems]
  · intro hn
    rw [hnone hn, hitems]

/-! ### `remove` and `get` facts -/

theorem get_state_eq {m : HashMap K V} {k : K} {r : Option V}
    {m' : HashMap K V} (h : get hash m k = some (r, m')) : m' = m := by
  rw [get] at h
  cases h1 : bucket_idx hash m k with
  | none =>
    simp only [h1] at h
    cases h
  | some i =>
    simp only [h1] at h
    cases h2 : m.buckets[i]? with
    | none =>
      simp only [h2] at h
      cases h
    | some b =>
      simp only [h2] at h
      exact (congrArg Prod.snd (Option.some.inj h)).symm

theorem Inv_new : Inv hash (HashMap.new : HashMap K V) :=
  ⟨fun i b hb => by simp [HashMap.new] at hb, by simp [HashMap.new], rfl⟩

/-- `remove` preserves the table invariant whenever it returns. -/
theorem Inv_remove {m : HashMap K V} (hInv : Inv hash m) {k : K}
    {m' : HashMap K V} {r : Option V} (heq : remove hash m k = some (m', r)) :
    Inv hash m' := by
  by_cases h : m.buckets.length = 0
  · rw [remove, bucket_idx] at heq
    rw [if_pos h] at heq
    simp at heq
  · have h0 : 0 < m.buckets.length := Nat.pos_of_ne_zero h
    obtain ⟨b, hb⟩ := bucket_exists hash h0 k
    rw [remove] at heq
    simp only [bucket_idx_of_pos hash h0, hb] at heq
    cases hpos : position (fun p => decide (p.1 = k)) b with
    | none =>
      simp only [hpos] at heq
      have hm : m = m' := congrArg Prod.fst (Option.some.inj heq)
      rw [← hm]
      exact hInv
    | some j =>
      obtain ⟨p, hpj, hpk⟩ := position_eq_some hpos
      simp only [hpos, hpj] at heq
      have hm' : m' = ⟨m.buckets.set (hash k % m.buckets.length) (swapRemove b j),
          m.items - 1⟩ :=
        (congrArg Prod.fst (Option.some.inj heq)).symm
      subst hm'
      have hjb : j < b.length := (List.getElem?_eq_some.mp hpj).1
      have hiLt : hash k % m.buckets.length < m.buckets.length := Nat.mod_lt _ h0
      have hflat : m.buckets.flatten
          = (m.buckets.take (hash k % m.buckets.length)).flatten
            ++ (b ++ (m.buckets.drop (hash k % m.buckets.length + 1)).flatten) := by
        have := flatten_split m.buckets (hash k % m.buckets.length) hiLt
        rw [hb] at this
        exact this
      have hflat' : (m.buckets.set (hash k % m.buckets.length)
            (swapRemove b j)).flatten
          = (m.buckets.take (hash k % m.buckets.length)).flatten
            ++ (swapRemove b j
              ++ (m.buckets.drop (hash k % m.buckets.length + 1)).flatten) :=
        flatten_set m.buckets _ _ hiLt
      refine ⟨?_, ?_, ?_⟩
      · intro jj bq hbq q hq
        simp only [List.length_set]
        rw [List.getElem?_set] at hbq
        by_cases hij : hash k % m.buckets.length = jj
        · rw [if_pos hij, if_pos (hij ▸ hiLt)] at hbq
          cases hbq
          rw [← hij]
          exact hInv.1 _ b hb q (swapRemove_subset hjb q hq)
        · rw [if_neg hij] at hbq
          exact hInv.1 jj bq hbq q hq
      · show ((m.buckets.set (hash k % m.buckets.length)
            (swapRemove b j)).flatten.map Prod.fst).Nodup
        rw [hflat']
        have hpermfl :
            ((m.buckets.take (hash k % m.buckets.length)).flatten
              ++ (swapRemove b j
                ++ (m.buckets.drop (hash k % m.buckets.length + 1)).flatten)).Perm
            ((m.buckets.take (hash k % m.buckets.length)).flatten
              ++ (b.eraseIdx j
                ++ (m.buckets.drop (hash k % m.buckets.length + 1)).flatten)) :=
          List.Perm.append_left _
            (List.Perm.append_right _ (swapRemove_perm hjb))
        refine ((hpermfl.map Prod.fst).nodup_iff).mpr ?_
        have hsub :
            ((m.buckets.take (hash k % m.buckets.length)).flatten
              ++ (b.eraseIdx j
                ++ (m.buckets.drop (hash k % m.buckets.length + 1)).flatten)).Sublist
            ((m.buckets.take (hash k % m.buckets.length)).flatten
              ++ (b ++ (m.buckets.drop (hash k % m.buckets.length + 1)).flatten)) :=
          (List.Sublist.refl _).append
            ((List.eraseIdx_sublist b j).append (List.Sublist.refl _))
        refine List.Nodup.sublist (hsub.map Prod.fst) ?_
        rw [← hflat]
        exact hInv.2.1
      · show m.items - 1 = (m.buckets.set (hash k % m.buckets.length)
            (swapRemove b j)).flatten.length
        have hlen' : (m.buckets.set (hash k % m.buckets.length)
              (swapRemove b j)).flatten.length
            = (m.buckets.take (hash k % m.buckets.length)).flatten.length
              + ((swapRemove b j).length
                + (m.buckets.drop (hash k % m.buckets.length + 1)).flatten.length) := by
          rw [hflat', List.length_append, List.length_append]
        have hlen : m.items
            = (m.buckets.take (hash k % m.buckets.length)).flatten.length
              + (b.length
                + (m.buckets.drop (hash k % m.buckets.length + 1)).flatten.length) := by
          rw [hInv.2.2, hflat, List.length_append, List.length_append]
        have hsw : (swapRemove b j).length = b.length - 1 := swapRemove_length hjb
        rw [hlen', hsw, hlen]
        omega

/-! ### The iterator -/

omit [DecidableEq K] in
/-- Unfolding equation of `Iter.next` without the scrutinee binder. -/
theorem next_eq (m : HashMap K V) (s : Iter) :
    Iter.next m s = match m.buckets[s.bucket]? with
      | some bucket => match bucket[s.at_]? with
        | some p => some (p, ⟨s.bucket, s.at_ + 1⟩)
        | none => Iter.next m ⟨s.bucket + 1, 0⟩
      | none => none := by
  rw [Iter.next]
  cases hb : m.buckets[s.bucket]? with
  | none => rfl
  | some bucket => rfl

/-- The entries a traversal cursor has not produced yet: the rest of the
current bucket, then all later buckets. -/
def iterRemaining (m : HashMap K V) (s : Iter) : List (K × V) :=
  match m.buckets.drop s.bucket with
  | [] => []
  | b :: rest => b.drop s.at_ ++ rest.flatten

omit [DecidableEq K] in
/-- One step of `Iter::next` consumes exactly the head of the remaining
entries, and never moves the bucket cursor backwards. -/
theorem next_spec (m : HashMap K V) (s : Iter) :
    (Iter.next m s = none → iterRemaining m s = []) ∧
    (∀ p s', Iter.next m s = some (p, s') →
      iterRemaining m s = p :: iterRemaining m s' ∧ s.bucket ≤ s'.bucket) := by
  cases hb : m.buckets[s.bucket]? with
  | none =>
    have hlen : m.buckets.length ≤ s.bucket := by
      by_contra hlt
      rw [List.getElem?_eq_getElem (by omega)] at hb
      cases hb
    have hdrop : m.buckets.drop s.bucket = [] :=
      List.drop_eq_nil_of_le hlen
    constructor
    · intro _
      rw [iterRemaining, hdrop]
    · intro p s' hn
      rw [next_eq, hb] at hn
      cases hn
  | some b =>
    have hblt : s.bucket < m.buckets.length := (List.getElem?_eq_some.mp hb).1
    have hdrop : m.buckets.drop s.bucket = b :: m.buckets.drop (s.bucket + 1) := by
      rw [List.drop_eq_getElem_cons hblt]
      obtain ⟨h', hbe⟩ := List.getElem?_eq_some.mp hb
      rw [hbe]
    cases ha : b[s.at_]? with
    | some p =>
      have hnext : Iter.next m s = some (p, ⟨s.bucket, s.at_ + 1⟩) := by
        rw [next_eq, hb]
        simp only [ha]
      have hat : s.at_ < b.length := (List.getElem?_eq_some.mp ha).1
      have hbdrop : b.drop s.at_ = p :: b.drop (s.at_ + 1) := by
        rw [List.drop_eq_getElem_cons hat]
        obtain ⟨h', hpe⟩ := List.getElem?_eq_some.mp ha
        rw [hpe]
      constructor
      · intro hn
        rw [hnext] at hn
        cases hn
      · intro q s' hn
        rw [hnext] at hn
        injection Option.some.inj hn with h1 h2
        subst h1
        subst h2
        refine ⟨?_, Nat.le_refl _⟩
        simp only [iterRemaining, hdrop, hbdrop, List.cons_append]
    | none =>
      have hnext : Iter.next m s = Iter.next m ⟨s.bucket + 1, 0⟩ := by
        rw [next_eq, hb]
        simp only [ha]
      have hat : b.length ≤ s.at_ := by
        by_contra hlt
        rw [List.getElem?_eq_getElem (by omega)] at ha
        cases ha
      have hbdrop : b.drop s.at_ = [] := List.drop_eq_nil_of_le hat
      have hrem : iterRemaining m s = iterRemaining m ⟨s.bucket + 1, 0⟩ := by
        simp only [iterRemaining, hdrop, hbdrop]
        cases hd : m.buckets.drop (s.bucket + 1) with
        | nil => simp
        | cons b' rest' => simp
      have ih := next_spec m ⟨s.bucket + 1, 0⟩
      constructor
      · intro hn
        rw [hnext] at hn
        rw [hrem]
        exact ih.1 hn
      · intro p s' hn
        rw [hnext] at hn
        obtain ⟨h1, h2⟩ := ih.2 p s' hn
        exact ⟨hrem.trans h1, Nat.le_trans (Nat.le_succ s.bucket) h2⟩
termination_by m.buckets.length - s.bucket
decreasing_by
  have hblt : s.bucket < m.buckets.length := (List.getElem?_eq_some.mp hb).1
  omega

/-- The full drain of the iterator: repeated `next` until exhaustion. -/
def Iter.toList (m : HashMap K V) (s : Iter) : List (K × V) :=
  match h : Iter.next m s with
  | none => []
  | some (p, s') => p :: Iter.toList m s'
termination_by (iterRemaining m s).length + (m.buckets.length - s.bucket)
decreasing_by
  obtain ⟨hrem, hble⟩ := (next_spec m s).2 p s' h
  have hlen := congrArg List.length hrem
  simp only [List.length_cons] at hlen
  omega

omit [DecidableEq K] in
theorem toList_eq_remaining (m : HashMap K V) (s : Iter) :
    Iter.toList m s = iterRemaining m s := by
  rw [Iter.toList]
  cases hn : Iter.next m s with
  | none =>
    rw [(next_spec m s).1 hn]
  | some ps =>
    obtain ⟨p, s'⟩ := ps
    obtain ⟨hrem, hble⟩ := (next_spec m s).2 p s' hn
    rw [hrem]
    exact congrArg _ (toList_eq_remaining m s')
termination_by (iterRemaining m s).length + (m.buckets.length - s.bucket)
decreasing_by
  obtain ⟨hrem, hble⟩ := (next_spec m s).2 p s' hn
  have hlen := congrArg List.length hrem
  simp only [List.length_cons] at hlen
  omega

omit [DecidableEq K] in
/-- A fresh traversal yields exactly the concatenation of the buckets, in
bucket order and in-bucket storage order. -/
theorem iter_complete (m : HashMap K V) :
    Iter.toList m (m.into_iter) = m.buckets.flatten := by
  rw [toList_eq_remaining, HashMap.into_iter]
  cases hm : m.buckets with
  | nil => simp [iterRemaining, hm]
  | cons b rest => simp [iterRemaining, hm]

/-! ### Claim theorems -/

/-- C1: the claim says `get` on a table with an empty bucket array must not
address a bucket and must return nothing.  The code instead computes
`hasher.finish() % 0` in `bucket_idx`, which panics: evaluating the model at
the failing input (a freshly constructed table, any key) yields the
panic value `none`, not the normal return `some none`. -/
theorem C1_get_on_empty_table_aborts :
    get (fun n => n) (HashMap.new : HashMap Nat Nat) 0 = none := rfl

/-- C2: the claim says `remove` of an absent key returns nothing and changes
nothing, including on an empty bucket array.  On the empty bucket array the
code panics in `bucket_idx` (remainder by zero): the model returns the panic
value `none` instead of the normal `some (m, none)`. -/
theorem C2_remove_on_empty_table_aborts :
    remove (fun n => n) (HashMap.new : HashMap Nat Nat) 0 = none := rfl

/-- C3: round-trip — on every table state, `insert k v` succeeds and a
subsequent `get k` returns `v` (and leaves the table unchanged). -/
theorem C3_insert_get_roundtrip (hash : K → Nat) (m : HashMap K V) (k : K)
    (v : V) :
    ∃ m' old, insert hash m k v = some (m', old)
      ∧ get hash m' k = some (some v, m') :=
  insert_then_get hash m k v

/-- C4: overwrite — from any table state satisfying the data-model invariant,
after `insert k v1`, a second `insert k v2` returns the previous value `v1`,
a subsequent `get k` returns `v2`, and `len()` is unchanged by the second
insert. -/
theorem C4_overwrite (hash : K → Nat) (m : HashMap K V) (k : K) (v1 v2 : V)
    (hInv : Inv hash m) :
    ∃ m1 o1, insert hash m k v1 = some (m1, o1) ∧
    ∃ m2 o2, insert hash m1 k v2 = some (m2, o2) ∧
      o2 = some v1 ∧ get hash m2 k = some (some v2, m2) ∧
      m2.len = m1.len := by
  obtain ⟨m1, o1, he1, hInv1, _, hnew1, _, _⟩ := insert_spec hash hInv k v1
  obtain ⟨m2, o2, he2, hInv2, hold2, hnew2, hsome2, _⟩ := insert_spec hash hInv1 k v2
  obtain ⟨m2', o2', he2', hg⟩ := insert_then_get hash m1 k v2
  rw [he2] at he2'
  injection he2'.symm with h12
  injection h12 with hm12 ho12
  subst hm12
  subst ho12
  have ho2 : o2' = some v1 := by
    rw [hold2, hnew1]
  refine ⟨m1, o1, he1, m2', o2', he2, ho2, hg, ?_⟩
  show m2'.items = m1.items
  exact hsome2 (by rw [ho2]; rfl)

/-- C5: the data-model invariant (every pair in the bucket selected by its
hash, globally unique keys, `item_count` equal to the total number of stored
pairs) holds for `new` and is preserved by `insert`, `get` and `remove`
whenever they return.  Iteration takes the table read-only in the model and
has no state to preserve. -/
theorem C5_invariant_preserved (hash : K → Nat) :
    Inv hash (HashMap.new : HashMap K V) ∧
    (∀ (m : HashMap K V) k v m' old, Inv hash m →
      insert hash m k v = some (m', old) → Inv hash m') ∧
    (∀ (m : HashMap K V) k r m', Inv hash m →
      get hash m k = some (r, m') → Inv hash m') ∧
    (∀ (m : HashMap K V) k m' r, Inv hash m →
      remove hash m k = some (m', r) → Inv hash m') := by
  refine ⟨Inv_new hash, ?_, ?_, ?_⟩
  · intro m k v m' old hInv heq
    obtain ⟨m'', old'', heq', hInv', _⟩ := insert_spec hash hInv k v
    rw [heq] at heq'
    injection heq' with h12
    injection h12 with hm12 _
    rw [hm12]
    exact hInv'
  · intro m k r m' hInv heq
    rw [get_state_eq hash heq]
    exact hInv
  · intro m k m' r hInv heq
    exact Inv_remove hash hInv heq

/-- C5 witness: the invariant holds for the fresh table, and is preserved
through a concrete successful insert. -/
theorem C5_witness :
    Inv (fun n => n) (HashMap.new : HashMap Nat Nat) ∧
    Inv (fun n => n) (⟨[[(1, 2)]], 1⟩ : HashMap Nat Nat) :=
  ⟨(C5_invariant_preserved (fun n => n)).1,
   (C5_invariant_preserved (fun n => n)).2.1 HashMap.new 1 2 ⟨[[(1, 2)]], 1⟩
     none (by decide) rfl⟩

/-- C4 witness: concrete run of the overwrite property from the fresh table. -/
theorem C4_witness :
    Inv (fun n => n) (HashMap.new : HashMap Nat Nat) ∧
    (∃ m1 o1, insert (fun n => n) (HashMap.new : HashMap Nat Nat) 1 2
        = some (m1, o1) ∧
     ∃ m2 o2, insert (fun n => n) m1 1 3 = some (m2, o2) ∧
       o2 = some 2 ∧ get (fun n => n) m2 1 = some (some 3, m2) ∧
       m2.len = m1.len) :=
  ⟨by decide, C4_overwrite (fun n => n) HashMap.new 1 2 3 (by decide)⟩

/-- C6: `resize` doubles the bucket count (or makes it one from zero), leaves
`items` untouched, moves every stored pair exactly once (the multiset of
pairs is preserved), and places every pair in the new bucket selected by its
hash modulo the new length. -/
theorem C6_resize_spec (hash : K → Nat) (m : HashMap K V) :
    ((resize hash m).buckets.length
      = if m.buckets.length = 0 then 1 else 2 * m.buckets.length) ∧
    (resize hash m).items = m.items ∧
    ((resize hash m).buckets.flatten).Perm m.buckets.flatten ∧
    (∀ i b, (resize hash m).buckets[i]? = some b → ∀ p ∈ b,
      hash p.1 % (resize hash m).buckets.length = i) :=
  ⟨resize_length hash m, resize_items hash m, resize_flatten_perm hash m, resize_placed hash m⟩

/-- C6 witness: rehash of a concrete two-bucket table into four buckets,
with the rehashed pair landing in bucket `1 % 4`. -/
theorem C6_witness :
    ((resize (fun n => n) (⟨[[(1, 2)], []], 1⟩ : HashMap Nat Nat)).buckets[1]?
        = some [(1, 2)])
    ∧ (fun n => n) ((1 : Nat), (2 : Nat)).1 % (resize (fun n => n)
        (⟨[[(1, 2)], []], 1⟩ : HashMap Nat Nat)).buckets.length = 1 :=
  ⟨rfl, (C6_resize_spec (fun n => n) ⟨[[(1, 2)], []], 1⟩).2.2.2 1 [(1, 2)] rfl
    (1, 2) (by decide)⟩

/-- C7: `insert` resizes before addressing exactly when the bucket array is
empty or `items > 3 * buckets.len() / 4`, the array it then addresses is
never empty, and the operation always succeeds. -/
theorem C7_insert_resize_policy (hash : K → Nat) (m : HashMap K V) (k : K)
    (v : V) :
    (insert hash m k v).isSome = true ∧
    insert hash m k v
      = insertCore hash
          (if m.buckets.isEmpty || decide (3 * m.buckets.length / 4 < m.items)
           then resize hash m else m) k v ∧
    0 < (if m.buckets.isEmpty || decide (3 * m.buckets.length / 4 < m.items)
         then resize hash m else m).buckets.length := by
  refine ⟨?_, rfl, insert_pre_pos hash m⟩
  obtain ⟨m', old, heq, _⟩ := insert_then_get hash m k v
  rw [heq]
  rfl

omit [DecidableEq K] in
/-- C8: a full iteration from a fresh handle yields exactly the concatenation
of the buckets — bucket 0 first, then bucket 1, and so on, each stored entry
exactly once in its bucket's storage order — and terminates (the drain is a
finite list). -/
theorem C8_iteration_order (m : HashMap K V) :
    Iter.toList m (m.into_iter) = m.buckets.flatten :=
  iter_complete m

/-- C9: `get` never mutates the table: whenever it returns, the table it
hands back is the table it was given, found or not. -/
theorem C9_get_no_mutation (hash : K → Nat) (m : HashMap K V) (k : K)
    (r : Option V) (m' : HashMap K V) (h : get hash m k = some (r, m')) :
    m' = m :=
  get_state_eq hash h

/-- C9 witness: a concrete successful `get` returning the unchanged table. -/
theorem C9_witness :
    get (fun n => n) (⟨[[(1, 2)]], 1⟩ : HashMap Nat Nat) 1
      = some (some 2, ⟨[[(1, 2)]], 1⟩)
    ∧ (⟨[[(1, 2)]], 1⟩ : HashMap Nat Nat) = ⟨[[(1, 2)]], 1⟩ :=
  ⟨rfl, C9_get_no_mutation (fun n => n) ⟨[[(1, 2)]], 1⟩ 1 (some 2)
    ⟨[[(1, 2)]], 1⟩ rfl⟩

omit [DecidableEq K] in
/-- C10: iterating a freshly constructed table yields no items and completes
normally: the first `next` returns nothing and the full drain is empty, even
though `get`/`remove` would panic addressing that same empty array. -/
theorem C10_iterate_fresh_table (K' V' : Type) :
    Iter.next (HashMap.new : HashMap K' V') (HashMap.new : HashMap K' V').into_iter
        = none
    ∧ Iter.toList (HashMap.new : HashMap K' V')
        (HashMap.new : HashMap K' V').into_iter = [] := by
  constructor
  · rw [next_eq]
    rfl
  · rw [iter_complete]
    rfl

end Rust
